import Mathlib

/-!
Shallow embedding of the Connect Four rule engine from `src/main.rs`.

Source conventions carried over:
* `BOARD_WIDTH = 7`, `BOARD_HEIGHT = 6` (inlined as the literals 7 and 6);
* the board is a 6-row by 7-column grid; row index 0 is the top row
  (rows are printed top to bottom), so "lower" cells have larger row index;
* cells are stored as `u8` in the source with 0 = empty, 1 = player one,
  2 = player two; every value the program ever writes is `0`,
  `Player::One as u8` or `Player::Two as u8`, so we model a cell directly
  by the `Player` enum (`Player::FromInt` then becomes the identity on the
  stored mark);
* `CurrentMove` is a `u8` counter; it is bounded by the 42 board cells on
  every path that increments it, so no wrap-around at 256 is reachable and
  we model it as `Nat`.
-/

namespace ConnectFour

/-- The `Player` enum of the source: `One = 1`, `Two = 2`, `None = 0`. -/
inductive Player where
  | One
  | Two
  | None
  deriving DecidableEq, Fintype

/-- The `MoveError` enum of the source. -/
inductive MoveError where
  | GameFinished
  | InvalidColumn
  | ColumnFull
  deriving DecidableEq

/-- `type Board = [[u8; BOARD_WIDTH]; BOARD_HEIGHT]`, with cells modelled
by `Player` (see the header comment). Index order is `(row, column)`. -/
def Board : Type := Fin 6 × Fin 7 → Player

instance : DecidableEq Board := by
  unfold Board
  infer_instance

/-- The `Game` struct of the source. -/
structure Game where
  CurrentMove : Nat
  CurrentPlayer : Player
  Board : Board
  IsFinished : Bool
  Winner : Player

instance : DecidableEq Game := fun g h => by
  cases g
  cases h
  exact decidable_of_iff _ (iff_of_eq (Game.mk.injEq ..)).symm

instance : DecidableEq (Except MoveError Unit) := fun a b =>
  match a, b with
  | Except.error x, Except.error y =>
    if h : x = y then isTrue (by rw [h]) else
      isFalse (fun hh => by injection hh with h2; exact h h2)
  | Except.ok x, Except.ok y => isTrue (by cases x; cases y; rfl)
  | Except.error _, Except.ok _ => isFalse (fun hh => Except.noConfusion hh)
  | Except.ok _, Except.error _ => isFalse (fun hh => Except.noConfusion hh)

/-- `Game::new()`: empty board, move 0, player one to move. -/
def Game.new : Game where
  CurrentMove := 0
  CurrentPlayer := Player.One
  Board := fun _ => Player.None
  IsFinished := false
  Winner := Player.None

/-- In-bounds test on signed coordinates, as in the `while` condition of
`FindWinner`: `r >= 0 && r < BOARD_HEIGHT && c >= 0 && c < BOARD_WIDTH`. -/
def inB (r c : Int) : Prop :=
  0 ≤ r ∧ r < 6 ∧ 0 ≤ c ∧ c < 7

instance (r c : Int) : Decidable (inB r c) :=
  decidable_of_iff (0 ≤ r ∧ r < 6 ∧ 0 ≤ c ∧ c < 7) Iff.rfl

/-- Board lookup at signed coordinates; only ever used under `inB`,
mirroring `self.Board[r as usize][c as usize]` guarded by the bounds
check. Out of bounds it returns `Player.None` (never relied upon). -/
def cellAt (b : Board) (r c : Int) : Player :=
  if h : inB r c then
    b (⟨r.toNat, by have h1 := h.1; have h2 := h.2.1; omega⟩,
       ⟨c.toNat, by have h1 := h.2.2.1; have h2 := h.2.2.2; omega⟩)
  else Player.None

/-- The direction array of `FindWinner`:
`[(0, 1), (1, 0), (1, 1), (1, -1)]` as `(row-step, col-step)`. -/
def directions : List (Int × Int) := [(0, 1), (1, 0), (1, 1), (1, -1)]

/-- The inner `while` loop of `FindWinner`, walking from `(r, c)` in
direction `(dr, dc)`. The loop starts with `count = 1` and returns the
winning mark as soon as `count` reaches 4; the fuel argument is
`4 - count`, so the call with fuel 3 returns `true` exactly when the loop
starting at `(r, c)` reaches `count == 4`. -/
def dirWin (b : Board) (cell : Player) (dr dc : Int) : Int → Int → Nat → Bool
  | _, _, 0 => true
  | r, c, n + 1 =>
    if inB r c ∧ cellAt b r c = cell then dirWin b cell dr dc (r + dr) (c + dc) n
    else false

/-- One origin cell of the scan in `FindWinner`: `some mark` exactly when
the source's inner loops would `return Player::FromInt(cell)` from this
origin (`cell != 0`, and some direction reaches `count == 4`). -/
def winAt (b : Board) (r : Fin 6) (c : Fin 7) : Option Player :=
  if b (r, c) = Player.None then none
  else if directions.any fun d =>
      dirWin b (b (r, c)) d.1 d.2 ((r.val : Int) + d.1) ((c.val : Int) + d.2) 3 then
    some (b (r, c))
  else none

/-- The scan order of `FindWinner`: `row in 0..BOARD_HEIGHT` outer,
`column in 0..BOARD_WIDTH` inner. -/
def boardCells : List (Fin 6 × Fin 7) :=
  (List.finRange 6).flatMap fun r => (List.finRange 7).map fun c => (r, c)

/-- The full board scan of `FindWinner` (without the early-move gate and
without the draw side effect): the first origin that wins decides. -/
def WinnerScan (b : Board) : Option Player :=
  boardCells.findSome? fun rc => winAt b rc.1 rc.2

/-- `Game::FindWinner`. It returns the winner it found and the (possibly
updated) game state: the source mutates `self.IsFinished` when the scan
finds nothing and the board is full (`CurrentMove == BOARD_WIDTH * BOARD_HEIGHT = 42`). -/
def FindWinner (g : Game) : Player × Game :=
  if g.CurrentMove < 7 then (Player.None, g)
  else
    match WinnerScan g.Board with
    | some p => (p, g)
    | none =>
      if g.CurrentMove = 42 then (Player.None, { g with IsFinished := true })
      else (Player.None, g)

/-- The row search of `MakeMove`:
`(0..BOARD_HEIGHT).rev().find(|&row| self.Board[row][column] == 0)`.
`findRowFrom b col n h` scans rows `n-1, n-2, ..., 0` in that order. -/
def findRowFrom (b : Board) (col : Fin 7) : (n : Nat) → n ≤ 6 → Option (Fin 6)
  | 0, _ => none
  | n + 1, h =>
    if b (⟨n, by omega⟩, col) = Player.None then some ⟨n, by omega⟩
    else findRowFrom b col n (by omega)

/-- First empty row of the column scanning from the bottom row upward. -/
def findRow (b : Board) (col : Fin 7) : Option (Fin 6) :=
  findRowFrom b col 6 (by omega)

/-- The player switch at the end of `MakeMove`:
`match self.CurrentPlayer { Player::One => Player::Two, _ => Player::One }`. -/
def SwitchPlayer : Player → Player
  | Player.One => Player.Two
  | _ => Player.One

/-- Board write `self.Board[row][column] = self.CurrentPlayer as u8`. -/
def setCell (b : Board) (pos : Fin 6 × Fin 7) (v : Player) : Board :=
  Function.update b pos v

/-- The tail of `MakeMove` after the piece was placed: run `FindWinner`
on the updated state, then either record the winner or switch players. -/
def afterPlace (g1 : Game) : Game :=
  if (FindWinner g1).fst ≠ Player.None then
    { (FindWinner g1).snd with
      Winner := (FindWinner g1).fst
      IsFinished := true }
  else
    { (FindWinner g1).snd with
      CurrentPlayer := SwitchPlayer (FindWinner g1).snd.CurrentPlayer }

/-- `Game::MakeMove`. The second component is the state after the call
(`self` is `&mut` in the source; an error leaves it untouched). -/
def MakeMove (g : Game) (column : Nat) : Except MoveError Unit × Game :=
  if g.IsFinished then (Except.error MoveError.GameFinished, g)
  else if hcol : 7 ≤ column then (Except.error MoveError.InvalidColumn, g)
  else
    match findRow g.Board ⟨column, by omega⟩ with
    | none => (Except.error MoveError.ColumnFull, g)
    | some row =>
      (Except.ok (),
        afterPlace
          { g with
            Board := setCell g.Board (row, ⟨column, by omega⟩) g.CurrentPlayer
            CurrentMove := g.CurrentMove + 1 })

/-! ### Specification-level predicates -/

/-- A run of four cells of mark `p` starting at `(r, c)` and walking in
direction `(dr, dc)`: cells `(r + k*dr, c + k*dc)` for `k = 0, 1, 2, 3`
are all in bounds and hold `p`. -/
def LineFrom (b : Board) (p : Player) (r c dr dc : Int) : Prop :=
  ∀ k : Nat, k < 4 →
    inB (r + (k : Int) * dr) (c + (k : Int) * dc) ∧
    cellAt b (r + (k : Int) * dr) (c + (k : Int) * dc) = p

instance (b : Board) (p : Player) (r c dr dc : Int) :
    Decidable (LineFrom b p r c dr dc) := by
  unfold LineFrom
  infer_instance

/-- "The board contains 4 consecutive cells holding `p`, collinear along
one of the four scanned directions", with the run's first-scanned cell as
origin. -/
def HasLine (b : Board) (p : Player) : Prop :=
  ∃ r : Fin 6, ∃ c : Fin 7, ∃ d ∈ directions,
    LineFrom b p (r.val : Int) (c.val : Int) d.1 d.2

instance (b : Board) (p : Player) : Decidable (HasLine b p) := by
  unfold HasLine
  infer_instance

/-! ### Basic facts about cell access and the direction walk -/

lemma inB_fin (r : Fin 6) (c : Fin 7) : inB (r.val : Int) (c.val : Int) := by
  have hr := r.isLt
  have hc := c.isLt
  unfold inB
  omega

lemma cellAt_fin (b : Board) (r : Fin 6) (c : Fin 7) :
    cellAt b (r.val : Int) (c.val : Int) = b (r, c) := by
  rw [cellAt, dif_pos (inB_fin r c)]
  apply congrArg
  apply Prod.ext <;> apply Fin.ext <;> simp

/-- Package the in-bounds coordinates back into board indices. -/
def toCell (r c : Int) (h : inB r c) : Fin 6 × Fin 7 :=
  (⟨r.toNat, by have h1 := h.1; have h2 := h.2.1; omega⟩,
   ⟨c.toNat, by have h1 := h.2.2.1; have h2 := h.2.2.2; omega⟩)

lemma cellAt_of_inB (b : Board) (r c : Int) (h : inB r c) :
    cellAt b r c = b (toCell r c h) := by
  rw [cellAt, dif_pos h]
  rfl

lemma toCell_val_fst (r c : Int) (h : inB r c) :
    ((toCell r c h).1.val : Int) = r := by
  have h1 := h.1
  unfold toCell
  simp
  omega

lemma toCell_val_snd (r c : Int) (h : inB r c) :
    ((toCell r c h).2.val : Int) = c := by
  have h1 := h.2.2.1
  unfold toCell
  simp
  omega

lemma dirWin_succ (b : Board) (cell : Player) (dr dc r c : Int) (n : Nat) :
    dirWin b cell dr dc r c (n + 1) =
      if inB r c ∧ cellAt b r c = cell then dirWin b cell dr dc (r + dr) (c + dc) n
      else false := rfl

lemma dirWin_zero (b : Board) (cell : Player) (dr dc r c : Int) :
    dirWin b cell dr dc r c 0 = true := rfl

/-- `LineFrom` written out as its four instances, with the walk offsets
in the iterated form the loop produces. -/
lemma lineFrom_iff_explicit (b : Board) (p : Player) (r c dr dc : Int) :
    LineFrom b p r c dr dc ↔
      ((inB r c ∧ cellAt b r c = p) ∧
       (inB (r + dr) (c + dc) ∧ cellAt b (r + dr) (c + dc) = p) ∧
       (inB (r + dr + dr) (c + dc + dc) ∧
         cellAt b (r + dr + dr) (c + dc + dc) = p) ∧
       (inB (r + dr + dr + dr) (c + dc + dc + dc) ∧
         cellAt b (r + dr + dr + dr) (c + dc + dc + dc) = p)) := by
  constructor
  · intro h
    have h0 := h 0 (by omega)
    have h1 := h 1 (by omega)
    have h2 := h 2 (by omega)
    have h3 := h 3 (by omega)
    norm_num at h0 h1 h2 h3
    rw [show r + 2 * dr = r + dr + dr by ring,
      show c + 2 * dc = c + dc + dc by ring] at h2
    rw [show r + 3 * dr = r + dr + dr + dr by ring,
      show c + 3 * dc = c + dc + dc + dc by ring] at h3
    exact ⟨h0, h1, h2, h3⟩
  · rintro ⟨h0, h1, h2, h3⟩ k hk
    interval_cases k <;> norm_num
    · exact h0
    · exact h1
    · rw [show r + 2 * dr = r + dr + dr by ring,
        show c + 2 * dc = c + dc + dc by ring]
      exact h2
    · rw [show r + 3 * dr = r + dr + dr + dr by ring,
        show c + 3 * dc = c + dc + dc + dc by ring]
      exact h3

/-- The fuel-3 walk from `(r + dr, c + dc)` succeeds exactly when the run
of four from `(r, c)` exists, provided the origin itself is in bounds and
holds the mark. -/
lemma dirWin_three_iff_lineFrom (b : Board) (p : Player) (r c dr dc : Int)
    (h0 : inB r c) (hc : cellAt b r c = p) :
    dirWin b p dr dc (r + dr) (c + dc) 3 = true ↔ LineFrom b p r c dr dc := by
  rw [lineFrom_iff_explicit]
  rw [show (3 : Nat) = 2 + 1 from rfl, dirWin_succ,
    show (2 : Nat) = 1 + 1 from rfl, dirWin_succ,
    show (1 : Nat) = 0 + 1 from rfl, dirWin_succ]
  constructor
  · intro hw
    split_ifs at hw with h1 h2 h3
    exact ⟨⟨h0, hc⟩, h1, h2, h3⟩
  · rintro ⟨-, h1, h2, h3⟩
    rw [if_pos h1, if_pos h2, if_pos h3]
    exact dirWin_zero ..

/-! ### Soundness and completeness of the board scan -/

lemma winAt_some_sound (b : Board) (r : Fin 6) (c : Fin 7) (p : Player)
    (h : winAt b r c = some p) :
    b (r, c) = p ∧ p ≠ Player.None ∧
      ∃ d ∈ directions,
        dirWin b p d.1 d.2 ((r.val : Int) + d.1) ((c.val : Int) + d.2) 3 = true := by
  unfold winAt at h
  split_ifs at h with h1 h2
  injection h with h
  subst h
  exact ⟨rfl, h1, List.any_eq_true.mp h2⟩

lemma winAt_some_of (b : Board) (r : Fin 6) (c : Fin 7)
    (hp : b (r, c) ≠ Player.None) (d : Int × Int) (hd : d ∈ directions)
    (hw : dirWin b (b (r, c)) d.1 d.2 ((r.val : Int) + d.1) ((c.val : Int) + d.2) 3
      = true) :
    winAt b r c = some (b (r, c)) := by
  unfold winAt
  rw [if_neg hp, if_pos]
  exact List.any_eq_true.mpr ⟨d, hd, hw⟩

lemma findSome?_eq_some_ex {α β : Type} (l : List α) (f : α → Option β) (y : β)
    (h : l.findSome? f = some y) : ∃ a ∈ l, f a = some y := by
  induction l with
  | nil => simp [List.findSome?_nil] at h
  | cons x xs ih =>
    rw [List.findSome?_cons] at h
    cases hx : f x with
    | some z =>
      simp only [hx, Option.some.injEq] at h
      exact ⟨x, by simp, by rw [hx, h]⟩
    | none =>
      simp only [hx] at h
      obtain ⟨a, ha, hfa⟩ := ih h
      exact ⟨a, by simp [ha], hfa⟩

lemma findSome?_isSome_of_mem {α β : Type} {l : List α} {f : α → Option β}
    {a : α} {y : β} (ha : a ∈ l) (hf : f a = some y) :
    ∃ z, l.findSome? f = some z := by
  induction l with
  | nil => cases ha
  | cons x xs ih =>
    rw [List.findSome?_cons]
    cases hx : f x with
    | some z =>
      refine ⟨z, ?_⟩
      simp only [hx]
    | none =>
      simp only [hx]
      rcases List.mem_cons.mp ha with h | h
      · rw [← h, hf] at hx
        cases hx
      · exact ih h

lemma mem_boardCells : ∀ rc : Fin 6 × Fin 7, rc ∈ boardCells := by decide

lemma winnerScan_sound (b : Board) (p : Player) (h : WinnerScan b = some p) :
    p ≠ Player.None ∧ HasLine b p := by
  obtain ⟨rc, hmem, hw⟩ := findSome?_eq_some_ex _ _ _ h
  obtain ⟨hbp, hp, d, hd, hdw⟩ := winAt_some_sound _ _ _ _ hw
  refine ⟨hp, rc.1, rc.2, d, hd, ?_⟩
  rw [← dirWin_three_iff_lineFrom _ _ _ _ _ _ (inB_fin rc.1 rc.2)
    (by rw [cellAt_fin]; exact hbp)]
  exact hdw

lemma winnerScan_complete (b : Board) (p : Player) (hp : p ≠ Player.None)
    (h : HasLine b p) : ∃ q, WinnerScan b = some q := by
  obtain ⟨r, c, d, hd, hl⟩ := h
  have hcell : cellAt b (r.val : Int) (c.val : Int) = p :=
    ((lineFrom_iff_explicit ..).mp hl).1.2
  have hb : b (r, c) = p := by rw [← cellAt_fin b r c]; exact hcell
  have hdw : dirWin b p d.1 d.2 ((r.val : Int) + d.1) ((c.val : Int) + d.2) 3
      = true :=
    (dirWin_three_iff_lineFrom _ _ _ _ _ _ (inB_fin r c) hcell).mpr hl
  have hwin := winAt_some_of b r c (by rw [hb]; exact hp) d hd
    (by rw [hb]; exact hdw)
  exact findSome?_isSome_of_mem (mem_boardCells (r, c)) hwin

/-- If the scan finds no winner, there is no line for any mark. -/
lemma winnerScan_none (b : Board) (p : Player) (hp : p ≠ Player.None)
    (h : WinnerScan b = none) : ¬ HasLine b p := by
  intro hl
  obtain ⟨q, hq⟩ := winnerScan_complete b p hp hl
  rw [h] at hq
  cases hq

/-! ### Case analysis lemmas for the operations -/

lemma findWinner_lt7 (g : Game) (h : g.CurrentMove < 7) :
    FindWinner g = (Player.None, g) := by
  unfold FindWinner
  rw [if_pos h]

lemma findWinner_some (g : Game) (p : Player) (h7 : ¬ g.CurrentMove < 7)
    (hs : WinnerScan g.Board = some p) : FindWinner g = (p, g) := by
  unfold FindWinner
  rw [if_neg h7, hs]

lemma findWinner_none_draw (g : Game) (h7 : ¬ g.CurrentMove < 7)
    (hs : WinnerScan g.Board = none) (h42 : g.CurrentMove = 42) :
    FindWinner g = (Player.None, { g with IsFinished := true }) := by
  unfold FindWinner
  rw [if_neg h7, hs, if_pos h42]

lemma findWinner_none (g : Game) (h7 : ¬ g.CurrentMove < 7)
    (hs : WinnerScan g.Board = none) (h42 : ¬ g.CurrentMove = 42) :
    FindWinner g = (Player.None, g) := by
  unfold FindWinner
  rw [if_neg h7, hs, if_neg h42]

/-- `FindWinner` touches nothing in the state besides possibly the
finished flag. -/
lemma findWinner_frame (g : Game) :
    (FindWinner g).snd.Board = g.Board ∧
    (FindWinner g).snd.CurrentMove = g.CurrentMove ∧
    (FindWinner g).snd.CurrentPlayer = g.CurrentPlayer ∧
    (FindWinner g).snd.Winner = g.Winner := by
  unfold FindWinner
  split
  · exact ⟨rfl, rfl, rfl, rfl⟩
  · split
    · exact ⟨rfl, rfl, rfl, rfl⟩
    · split <;> exact ⟨rfl, rfl, rfl, rfl⟩

lemma findRowFrom_some (b : Board) (col : Fin 7) :
    ∀ (n : Nat) (h : n ≤ 6) (row : Fin 6), findRowFrom b col n h = some row →
      row.val < n ∧ b (row, col) = Player.None ∧
        ∀ r : Fin 6, row < r → r.val < n → b (r, col) ≠ Player.None := by
  intro n
  induction n with
  | zero => intro h row hf; cases hf
  | succ n ih =>
    intro h row hf
    simp only [findRowFrom] at hf
    split_ifs at hf with hcell
    · injection hf with hf
      subst hf
      refine ⟨Nat.lt_succ_self n, hcell, ?_⟩
      intro r h1 h2
      have h1' : n < r.val := h1
      omega
    · obtain ⟨hn, hrow, hall⟩ := ih (by omega) row hf
      refine ⟨by omega, hrow, ?_⟩
      intro r h1 h2
      by_cases hr : r.val < n
      · exact hall r h1 hr
      · have : r = ⟨n, by omega⟩ := Fin.ext (show r.val = n by omega)
        rw [this]
        exact hcell

lemma findRowFrom_none (b : Board) (col : Fin 7) :
    ∀ (n : Nat) (h : n ≤ 6), findRowFrom b col n h = none ↔
      ∀ r : Fin 6, r.val < n → b (r, col) ≠ Player.None := by
  intro n
  induction n with
  | zero =>
    intro h
    constructor
    · intro _ r hr
      omega
    · intro _
      rfl
  | succ n ih =>
    intro h
    simp only [findRowFrom]
    split_ifs with hcell
    · constructor
      · intro hf
        cases hf
      · intro hall
        exact absurd hcell (hall ⟨n, by omega⟩ (Nat.lt_succ_self n))
    · rw [ih (by omega)]
      constructor
      · intro hall r hr
        by_cases hrn : r.val < n
        · exact hall r hrn
        · have : r = ⟨n, by omega⟩ := Fin.ext (show r.val = n by omega)
          rw [this]
          exact hcell
      · intro hall r hr
        exact hall r (by omega)

lemma findRow_some (b : Board) (col : Fin 7) (row : Fin 6)
    (h : findRow b col = some row) :
    b (row, col) = Player.None ∧
      ∀ r : Fin 6, row < r → b (r, col) ≠ Player.None := by
  obtain ⟨-, h1, h2⟩ := findRowFrom_some b col 6 (by omega) row h
  exact ⟨h1, fun r hr => h2 r hr r.isLt⟩

lemma findRow_none_iff (b : Board) (col : Fin 7) :
    findRow b col = none ↔ ∀ r : Fin 6, b (r, col) ≠ Player.None := by
  rw [findRow, findRowFrom_none b col 6 (by omega)]
  exact ⟨fun h r => h r r.isLt, fun h r _ => h r⟩

lemma makeMove_finished (g : Game) (col : Nat) (h : g.IsFinished = true) :
    MakeMove g col = (Except.error MoveError.GameFinished, g) := by
  unfold MakeMove
  rw [if_pos h]

lemma makeMove_invalid (g : Game) (col : Nat) (h : g.IsFinished = false)
    (hc : 7 ≤ col) :
    MakeMove g col = (Except.error MoveError.InvalidColumn, g) := by
  unfold MakeMove
  rw [if_neg (by simp [h]), dif_pos hc]

lemma makeMove_full (g : Game) (colF : Fin 7) (h : g.IsFinished = false)
    (hfr : findRow g.Board colF = none) :
    MakeMove g colF.val = (Except.error MoveError.ColumnFull, g) := by
  unfold MakeMove
  rw [if_neg (by simp [h]), dif_neg (by have := colF.isLt; omega)]
  simp only [Fin.eta]
  rw [hfr]

lemma makeMove_ok (g : Game) (colF : Fin 7) (row : Fin 6)
    (h : g.IsFinished = false) (hfr : findRow g.Board colF = some row) :
    MakeMove g colF.val =
      (Except.ok (),
        afterPlace
          { g with
            Board := setCell g.Board (row, colF) g.CurrentPlayer
            CurrentMove := g.CurrentMove + 1 }) := by
  unfold MakeMove
  rw [if_neg (by simp [h]), dif_neg (by have := colF.isLt; omega)]
  simp only [Fin.eta]
  rw [hfr]

/-! ### Counting cells on the board -/

/-- Number of cells of the board holding mark `p`. -/
def countP (b : Board) (p : Player) : Nat :=
  (Finset.univ.filter fun rc : Fin 6 × Fin 7 => b rc = p).card

lemma countP_empty (p : Player) (hp : p ≠ Player.None) :
    countP (fun _ => Player.None) p = 0 := by
  unfold countP
  rw [Finset.card_eq_zero]
  ext rc
  simp [Ne.symm hp]

lemma countP_setCell (b : Board) (pos : Fin 6 × Fin 7) (v p : Player)
    (hb : b pos = Player.None) (hp : p ≠ Player.None) :
    countP (setCell b pos v) p = countP b p + if v = p then 1 else 0 := by
  unfold countP setCell
  have hpos : pos ∉ Finset.univ.filter fun rc : Fin 6 × Fin 7 => b rc = p := by
    simp [hb, Ne.symm hp]
  by_cases hv : v = p
  · rw [if_pos hv]
    have hset : (Finset.univ.filter fun rc : Fin 6 × Fin 7 =>
        Function.update b pos v rc = p)
        = insert pos (Finset.univ.filter fun rc : Fin 6 × Fin 7 => b rc = p) := by
      ext rc
      by_cases hrc : rc = pos
      · subst hrc
        simp [Function.update_same, hv]
      · simp [Function.update_noteq hrc, hrc]
    rw [hset, Finset.card_insert_of_not_mem hpos]
  · rw [if_neg hv]
    have hset : (Finset.univ.filter fun rc : Fin 6 × Fin 7 =>
        Function.update b pos v rc = p)
        = Finset.univ.filter fun rc : Fin 6 × Fin 7 => b rc = p := by
      ext rc
      by_cases hrc : rc = pos
      · subst hrc
        simp [Function.update_same, hv, hb, Ne.symm hp]
      · simp [Function.update_noteq hrc]
    rw [hset]
    rfl

/-- A line of four cells of mark `p` forces at least four `p` cells. -/
lemma hasLine_count (b : Board) (p : Player) (_hp : p ≠ Player.None)
    (h : HasLine b p) : 4 ≤ countP b p := by
  obtain ⟨r, c, d, hd, hl⟩ := h
  have hmem : ∀ k ∈ (Finset.univ : Finset (Fin 4)),
      toCell _ _ (hl k.val k.isLt).1 ∈
        Finset.univ.filter fun rc : Fin 6 × Fin 7 => b rc = p := by
    intro k _
    rw [Finset.mem_filter]
    refine ⟨Finset.mem_univ _, ?_⟩
    rw [← cellAt_of_inB b _ _ (hl k.val k.isLt).1]
    exact (hl k.val k.isLt).2
  have hinj : Set.InjOn (fun k : Fin 4 => toCell _ _ (hl k.val k.isLt).1)
      (Finset.univ : Finset (Fin 4)) := by
    intro k1 _ k2 _ heq
    have h1 := congrArg (fun rc : Fin 6 × Fin 7 => (rc.1.val : Int)) heq
    have h2 := congrArg (fun rc : Fin 6 × Fin 7 => (rc.2.val : Int)) heq
    simp only [toCell_val_fst, toCell_val_snd] at h1 h2
    have hk1 := k1.isLt
    have hk2 := k2.isLt
    simp only [directions, List.mem_cons, List.not_mem_nil, or_false] at hd
    apply Fin.ext
    rcases hd with hd | hd | hd | hd <;> (subst hd; simp at h1 h2; omega)
  have hcard := Finset.card_le_card_of_injOn _ hmem hinj
  simpa [countP] using hcard

/-- A new line on the board after one write at an empty cell must pass
through the written cell, hence carry the written mark. -/
lemma hasLine_setCell_eq (b : Board) (pos : Fin 6 × Fin 7) (v q : Player)
    (_hq : q ≠ Player.None) (hnew : HasLine (setCell b pos v) q)
    (hold : ¬ HasLine b q) : q = v := by
  by_contra hqv
  apply hold
  obtain ⟨r, c, d, hd, hl⟩ := hnew
  refine ⟨r, c, d, hd, ?_⟩
  intro k hk
  obtain ⟨hin, hcell⟩ := hl k hk
  refine ⟨hin, ?_⟩
  rw [cellAt_of_inB _ _ _ hin] at hcell ⊢
  unfold setCell at hcell
  by_cases hc : toCell _ _ hin = pos
  · rw [hc, Function.update_same] at hcell
    exact absurd hcell.symm hqv
  · rw [Function.update_noteq hc] at hcell
    exact hcell

/-! ### Reachable states and the state invariant -/

/-- States reachable from `Game::new()` by any sequence of `MakeMove`
calls. A failed call leaves the state unchanged, so this is also the set
of states reachable by accepted moves only. -/
inductive Reachable : Game → Prop where
  | init : Reachable Game.new
  | step (g : Game) (col : Nat) : Reachable g → Reachable (MakeMove g col).snd

/-- Fold a list of column choices through `MakeMove`. -/
def play (g : Game) (cols : List Nat) : Game :=
  cols.foldl (fun s c => (MakeMove s c).snd) g

lemma reachable_play (g : Game) (h : Reachable g) (cols : List Nat) :
    Reachable (play g cols) := by
  induction cols generalizing g with
  | nil => exact h
  | cons x xs ih => exact ih _ (Reachable.step g x h)

/-- The player whose turn it is after `m` alternating moves starting with
player one. -/
def parityPlayer (m : Nat) : Player :=
  if m % 2 = 0 then Player.One else Player.Two

lemma switchPlayer_parity (m : Nat) :
    SwitchPlayer (parityPlayer m) = parityPlayer (m + 1) := by
  unfold parityPlayer
  by_cases h : m % 2 = 0
  · rw [if_pos h, if_neg (by omega)]
    rfl
  · rw [if_neg h, if_pos (by omega)]
    rfl

lemma parityPlayer_ne_none (m : Nat) : parityPlayer m ≠ Player.None := by
  unfold parityPlayer
  split_ifs <;> exact fun hh => Player.noConfusion hh

/-- The state invariant maintained by `MakeMove` from `Game::new()`:
exact cell counts determined by the move counter, turn parity, a clean
winner field while in progress, and the finished flag characterised by
"line on the board or board full". -/
def Inv (g : Game) : Prop :=
  countP g.Board Player.One = (g.CurrentMove + 1) / 2 ∧
  countP g.Board Player.Two = g.CurrentMove / 2 ∧
  (g.IsFinished = false → g.CurrentPlayer = parityPlayer g.CurrentMove) ∧
  (g.IsFinished = false → g.Winner = Player.None) ∧
  (g.IsFinished = true ↔
    (∃ p, p ≠ Player.None ∧ HasLine g.Board p) ∨ g.CurrentMove = 42)

instance (g : Game) : Decidable (Inv g) := by
  unfold Inv
  infer_instance

lemma inv_afterPlace (g : Game) (pos : Fin 6 × Fin 7) (hInv : Inv g)
    (hf : g.IsFinished = false) (hcell : g.Board pos = Player.None) :
    Inv (afterPlace
      { g with
        Board := setCell g.Board pos g.CurrentPlayer
        CurrentMove := g.CurrentMove + 1 }) := by
  obtain ⟨hOne, hTwo, hPl, hWin, hFin⟩ := hInv
  have hP : g.CurrentPlayer = parityPlayer g.CurrentMove := hPl hf
  have hW : g.Winner = Player.None := hWin hf
  have hnotfin : ¬ ((∃ p, p ≠ Player.None ∧ HasLine g.Board p) ∨
      g.CurrentMove = 42) := by
    intro hx
    have := hFin.mpr hx
    rw [hf] at this
    cases this
  have hm42 : g.CurrentMove ≠ 42 := fun hx => hnotfin (Or.inr hx)
  set m := g.CurrentMove with hm
  set b1 : Board := setCell g.Board pos g.CurrentPlayer with hb1
  have cOne : countP b1 Player.One =
      countP g.Board Player.One + if g.CurrentPlayer = Player.One then 1 else 0 :=
    countP_setCell _ _ _ _ hcell (fun hh => Player.noConfusion hh)
  have cTwo : countP b1 Player.Two =
      countP g.Board Player.Two + if g.CurrentPlayer = Player.Two then 1 else 0 :=
    countP_setCell _ _ _ _ hcell (fun hh => Player.noConfusion hh)
  have hc1 : countP b1 Player.One = (m + 1 + 1) / 2 := by
    by_cases hpar : m % 2 = 0
    · have : g.CurrentPlayer = Player.One := by
        rw [hP]
        unfold parityPlayer
        rw [if_pos hpar]
      rw [cOne, if_pos this, hOne]
      omega
    · have : g.CurrentPlayer = Player.Two := by
        rw [hP]
        unfold parityPlayer
        rw [if_neg hpar]
      rw [cOne, if_neg (by rw [this]; exact fun hh => Player.noConfusion hh), hOne]
      omega
  have hc2 : countP b1 Player.Two = (m + 1) / 2 := by
    by_cases hpar : m % 2 = 0
    · have : g.CurrentPlayer = Player.One := by
        rw [hP]
        unfold parityPlayer
        rw [if_pos hpar]
      rw [cTwo, if_neg (by rw [this]; exact fun hh => Player.noConfusion hh), hTwo]
      omega
    · have : g.CurrentPlayer = Player.Two := by
        rw [hP]
        unfold parityPlayer
        rw [if_neg hpar]
      rw [cTwo, if_pos this, hTwo]
      omega
  have hline7 : ∀ p, p ≠ Player.None → HasLine b1 p → 7 ≤ m + 1 := by
    intro p hp hl
    have h4 := hasLine_count b1 p hp hl
    cases p with
    | One => rw [hc1] at h4; omega
    | Two => rw [hc2] at h4; omega
    | None => exact absurd rfl hp
  set g1 : Game :=
    { g with Board := b1, CurrentMove := m + 1 } with hg1
  have hg1m : g1.CurrentMove = m + 1 := rfl
  have hg1b : g1.Board = b1 := rfl
  by_cases h7 : m + 1 < 7
  · have hfw : FindWinner g1 = (Player.None, g1) := findWinner_lt7 g1 h7
    simp only [afterPlace, hfw, ne_eq, not_true_eq_false, ite_false,
      not_false_iff, if_neg]
    refine ⟨hc1, hc2, ?_, ?_, ?_⟩
    · intro _
      show SwitchPlayer g.CurrentPlayer = parityPlayer (m + 1)
      rw [hP, switchPlayer_parity]
    · intro _
      exact hW
    · constructor
      · intro hx
        rw [show ({ g1 with CurrentPlayer := SwitchPlayer g1.CurrentPlayer } :
          Game).IsFinished = g.IsFinished from rfl, hf] at hx
        cases hx
      · intro hx
        rcases hx with ⟨p, hp, hl⟩ | hx
        · have := hline7 p hp hl
          omega
        · have : m + 1 = 42 := hx
          omega
  · cases hscan : WinnerScan b1 with
    | some q =>
      obtain ⟨hq, hql⟩ := winnerScan_sound b1 q hscan
      have hfw : FindWinner g1 = (q, g1) := findWinner_some g1 q h7 hscan
      simp only [afterPlace, hfw, ne_eq, hq, not_false_iff, if_pos]
      refine ⟨hc1, hc2, ?_, ?_, ?_⟩
      · intro hx
        cases hx
      · intro hx
        cases hx
      · constructor
        · intro _
          exact Or.inl ⟨q, hq, hql⟩
        · intro _
          rfl
    | none =>
      by_cases h42 : m + 1 = 42
      · have hfw : FindWinner g1 = (Player.None, { g1 with IsFinished := true }) :=
          findWinner_none_draw g1 h7 hscan h42
        simp only [afterPlace, hfw, ne_eq, not_true_eq_false, ite_false,
          not_false_iff, if_neg]
        refine ⟨hc1, hc2, ?_, ?_, ?_⟩
        · intro hx
          cases hx
        · intro hx
          cases hx
        · constructor
          · intro _
            exact Or.inr h42
          · intro _
            rfl
      · have hfw : FindWinner g1 = (Player.None, g1) :=
          findWinner_none g1 h7 hscan h42
        simp only [afterPlace, hfw, ne_eq, not_true_eq_false, ite_false,
          not_false_iff, if_neg]
        refine ⟨hc1, hc2, ?_, ?_, ?_⟩
        · intro _
          show SwitchPlayer g.CurrentPlayer = parityPlayer (m + 1)
          rw [hP, switchPlayer_parity]
        · intro _
          exact hW
        · constructor
          · intro hx
            rw [show ({ g1 with CurrentPlayer := SwitchPlayer g1.CurrentPlayer } :
              Game).IsFinished = g.IsFinished from rfl, hf] at hx
            cases hx
          · intro hx
            rcases hx with ⟨p, hp, hl⟩ | hx
            · exact absurd hl (winnerScan_none b1 p hp hscan)
            · exact absurd hx h42

lemma inv_step (g : Game) (col : Nat) (hInv : Inv g) :
    Inv (MakeMove g col).snd := by
  by_cases hf : g.IsFinished = true
  · rw [makeMove_finished g col hf]
    exact hInv
  have hf' : g.IsFinished = false := by
    revert hf
    cases g.IsFinished <;> simp
  by_cases hcol : 7 ≤ col
  · rw [makeMove_invalid g col hf' hcol]
    exact hInv
  have hlt : col < 7 := by omega
  cases hfr : findRow g.Board ⟨col, hlt⟩ with
  | none =>
    have hmm : MakeMove g col = (Except.error MoveError.ColumnFull, g) :=
      makeMove_full g ⟨col, hlt⟩ hf' hfr
    rw [hmm]
    exact hInv
  | some row =>
    have hmm : MakeMove g col =
        (Except.ok (),
          afterPlace
            { g with
              Board := setCell g.Board (row, ⟨col, hlt⟩) g.CurrentPlayer
              CurrentMove := g.CurrentMove + 1 }) :=
      makeMove_ok g ⟨col, hlt⟩ row hf' hfr
    rw [hmm]
    exact inv_afterPlace g (row, ⟨col, hlt⟩) hInv hf'
      (findRow_some g.Board ⟨col, hlt⟩ row hfr).1

lemma reachable_inv (g : Game) (h : Reachable g) : Inv g := by
  induction h with
  | init => decide
  | step g col _ ih => exact inv_step g col ih

/-! ### Helper lemmas about the shape of `MakeMove` results -/

lemma findWinner_fst_none (g : Game) (hscan : WinnerScan g.Board = none) :
    (FindWinner g).fst = Player.None := by
  by_cases h7 : g.CurrentMove < 7
  · rw [findWinner_lt7 g h7]
  · by_cases h42 : g.CurrentMove = 42
    · rw [findWinner_none_draw g h7 hscan h42]
    · rw [findWinner_none g h7 hscan h42]

lemma afterPlace_board (g1 : Game) : (afterPlace g1).Board = g1.Board := by
  unfold afterPlace
  split <;> exact (findWinner_frame g1).1

lemma afterPlace_move (g1 : Game) :
    (afterPlace g1).CurrentMove = g1.CurrentMove := by
  unfold afterPlace
  split <;> exact (findWinner_frame g1).2.1

lemma afterPlace_win (g1 : Game) (q : Player) (h7 : ¬ g1.CurrentMove < 7)
    (hscan : WinnerScan g1.Board = some q) (hq : q ≠ Player.None) :
    afterPlace g1 = { g1 with Winner := q, IsFinished := true } := by
  have hfw : FindWinner g1 = (q, g1) := findWinner_some g1 q h7 hscan
  unfold afterPlace
  rw [hfw, if_pos (show (q, g1).fst ≠ Player.None from hq)]

lemma afterPlace_noWin (g1 : Game) (hfst : (FindWinner g1).fst = Player.None) :
    afterPlace g1 =
      { (FindWinner g1).snd with
        CurrentPlayer := SwitchPlayer (FindWinner g1).snd.CurrentPlayer } := by
  unfold afterPlace
  rw [if_neg]
  rw [hfst]
  exact fun hh => hh rfl

lemma bool_not_true (b : Bool) (h : ¬ b = true) : b = false := by
  revert h
  cases b <;> simp

/-- Full classification of the error results of `MakeMove`. -/
lemma makeMove_error_cases (g : Game) (col : Nat) (e : MoveError)
    (he : (MakeMove g col).fst = Except.error e) :
    (MakeMove g col).snd = g ∧
    ((e = MoveError.GameFinished ∧ g.IsFinished = true) ∨
     (e = MoveError.InvalidColumn ∧ g.IsFinished = false ∧ 7 ≤ col) ∨
     (e = MoveError.ColumnFull ∧ g.IsFinished = false ∧
       ∃ hlt : col < 7, ∀ r : Fin 6, g.Board (r, ⟨col, hlt⟩) ≠ Player.None)) := by
  by_cases hf : g.IsFinished = true
  · rw [makeMove_finished g col hf] at he ⊢
    injection he with he
    subst he
    exact ⟨rfl, Or.inl ⟨rfl, hf⟩⟩
  · have hf' : g.IsFinished = false := bool_not_true _ hf
    by_cases hc : 7 ≤ col
    · rw [makeMove_invalid g col hf' hc] at he ⊢
      injection he with he
      subst he
      exact ⟨rfl, Or.inr (Or.inl ⟨rfl, hf', hc⟩)⟩
    · have hlt : col < 7 := by omega
      cases hfr : findRow g.Board ⟨col, hlt⟩ with
      | none =>
        have hmm : MakeMove g col = (Except.error MoveError.ColumnFull, g) :=
          makeMove_full g ⟨col, hlt⟩ hf' hfr
        rw [hmm] at he ⊢
        injection he with he
        subst he
        exact ⟨rfl, Or.inr (Or.inr
          ⟨rfl, hf', hlt, (findRow_none_iff _ _).mp hfr⟩)⟩
      | some row =>
        have hmm : MakeMove g col =
            (Except.ok (),
              afterPlace
                { g with
                  Board := setCell g.Board (row, ⟨col, hlt⟩) g.CurrentPlayer
                  CurrentMove := g.CurrentMove + 1 }) :=
          makeMove_ok g ⟨col, hlt⟩ row hf' hfr
        rw [hmm] at he
        cases he

/-- Shape of an accepted `MakeMove`. -/
lemma makeMove_ok_cases (g : Game) (col : Nat)
    (hok : (MakeMove g col).fst = Except.ok ()) :
    g.IsFinished = false ∧
    ∃ (hlt : col < 7) (row : Fin 6),
      findRow g.Board ⟨col, hlt⟩ = some row ∧
      MakeMove g col =
        (Except.ok (),
          afterPlace
            { g with
              Board := setCell g.Board (row, ⟨col, hlt⟩) g.CurrentPlayer
              CurrentMove := g.CurrentMove + 1 }) := by
  by_cases hf : g.IsFinished = true
  · rw [makeMove_finished g col hf] at hok
    cases hok
  · have hf' : g.IsFinished = false := bool_not_true _ hf
    by_cases hc : 7 ≤ col
    · rw [makeMove_invalid g col hf' hc] at hok
      cases hok
    · have hlt : col < 7 := by omega
      cases hfr : findRow g.Board ⟨col, hlt⟩ with
      | none =>
        have hmm : MakeMove g col = (Except.error MoveError.ColumnFull, g) :=
          makeMove_full g ⟨col, hlt⟩ hf' hfr
        rw [hmm] at hok
        cases hok
      | some row =>
        exact ⟨hf', hlt, row, hfr, makeMove_ok g ⟨col, hlt⟩ row hf' hfr⟩

/-- On a reachable board a line needs at least 7 moves on the counter. -/
lemma line_ge7 (g : Game) (hr : Reachable g) (p : Player)
    (hp : p ≠ Player.None) (hl : HasLine g.Board p) : 7 ≤ g.CurrentMove := by
  obtain ⟨hOne, hTwo, -, -, -⟩ := reachable_inv g hr
  have h4 := hasLine_count _ p hp hl
  cases p with
  | One => rw [hOne] at h4; omega
  | Two => rw [hTwo] at h4; omega
  | None => exact absurd rfl hp

/-! ### Concrete games used as witnesses -/

/-- Player one stacks column 0 on moves 1, 3, 5, 7; player two answers in
column 1. Six moves in: one move short of the vertical win. -/
def winCols : List Nat := [0, 1, 0, 1, 0, 1]

def g6 : Game := play Game.new winCols

def g7 : Game := (MakeMove g6 0).snd

/-- A full-board pattern with no 4-in-a-row anywhere: columns are grouped
in pairs `{0,1}, {2,3}, {4,5}, {6}` and the colour alternates both with
the row parity and with the column group. -/
def drawBoard : Board := fun rc =>
  if (5 - rc.1.val) % 2 = 0 ↔
      (rc.2.val = 0 ∨ rc.2.val = 1 ∨ rc.2.val = 4 ∨ rc.2.val = 5) then
    Player.One
  else Player.Two

/-- `drawBoard` with its top-left cell still empty, 41 moves in, player
two to move: the next accepted move fills the board with no line. -/
def drawPre : Game where
  CurrentMove := 41
  CurrentPlayer := Player.Two
  Board := setCell drawBoard (⟨0, by omega⟩, ⟨0, by omega⟩) Player.None
  IsFinished := false
  Winner := Player.None

/-- Column order whose sixfold repetition fills the board to `drawBoard`
under strict alternation, without ever forming a line. -/
def drawCols : List Nat :=
  [0, 2, 1, 3, 4, 6, 5, 0, 2, 1, 3, 4, 6, 5, 0, 2, 1, 3, 4, 6, 5,
   0, 2, 1, 3, 4, 6, 5, 0, 2, 1, 3, 4, 6, 5, 0, 2, 1, 3, 4, 6, 5]

def g41 : Game := play Game.new (drawCols.take 41)

/-! ### Claim theorems -/

/-- Claim C1: for every game state whose move count is at least 7,
`FindWinner` returns a non-Empty player exactly when the board contains 4
consecutive cells holding that player's mark along one of the four
scanned directions; it returns Empty when no such line exists for either
player. -/
theorem claim_C1 (g : Game) (h7 : 7 ≤ g.CurrentMove) :
    ((FindWinner g).fst ≠ Player.None → HasLine g.Board (FindWinner g).fst) ∧
    (∀ p, p ≠ Player.None → HasLine g.Board p →
      (FindWinner g).fst ≠ Player.None) ∧
    ((∀ p, p ≠ Player.None → ¬ HasLine g.Board p) →
      (FindWinner g).fst = Player.None) := by
  have h7' : ¬ g.CurrentMove < 7 := by omega
  cases hscan : WinnerScan g.Board with
  | some q =>
    have hfw := findWinner_some g q h7' hscan
    obtain ⟨hq, hl⟩ := winnerScan_sound _ _ hscan
    rw [hfw]
    exact ⟨fun _ => hl, fun p hp hpl => hq, fun hno => absurd hl (hno q hq)⟩
  | none =>
    have hfst := findWinner_fst_none g hscan
    rw [hfst]
    refine ⟨fun hx => absurd rfl hx, ?_, fun _ => rfl⟩
    intro p hp hl hx
    obtain ⟨q, hq⟩ := winnerScan_complete _ p hp hl
    rw [hscan] at hq
    cases hq

def gC1 : Game := { Game.new with CurrentMove := 7 }

theorem claim_C1_witness :
    7 ≤ gC1.CurrentMove ∧
    (((FindWinner gC1).fst ≠ Player.None →
        HasLine gC1.Board (FindWinner gC1).fst) ∧
     (∀ p, p ≠ Player.None → HasLine gC1.Board p →
        (FindWinner gC1).fst ≠ Player.None) ∧
     ((∀ p, p ≠ Player.None → ¬ HasLine gC1.Board p) →
        (FindWinner gC1).fst = Player.None)) :=
  ⟨by decide, claim_C1 gC1 (by decide)⟩

/-- Claim C3: a failing `MakeMove` returns exactly the specified error —
`GameFinished` if the state is finished, else `InvalidColumn` if the
column is out of range, else `ColumnFull` if the column has no empty cell
— and every failing call leaves the whole state unchanged. -/
theorem claim_C3 (g : Game) (col : Nat) :
    (g.IsFinished = true →
      MakeMove g col = (Except.error MoveError.GameFinished, g)) ∧
    (g.IsFinished = false → 7 ≤ col →
      MakeMove g col = (Except.error MoveError.InvalidColumn, g)) ∧
    (g.IsFinished = false → ∀ hlt : col < 7,
      (∀ r : Fin 6, g.Board (r, ⟨col, hlt⟩) ≠ Player.None) →
      MakeMove g col = (Except.error MoveError.ColumnFull, g)) ∧
    (∀ e, (MakeMove g col).fst = Except.error e →
      (MakeMove g col).snd = g ∧
      ((e = MoveError.GameFinished ∧ g.IsFinished = true) ∨
       (e = MoveError.InvalidColumn ∧ g.IsFinished = false ∧ 7 ≤ col) ∨
       (e = MoveError.ColumnFull ∧ g.IsFinished = false ∧
         ∃ hlt : col < 7,
           ∀ r : Fin 6, g.Board (r, ⟨col, hlt⟩) ≠ Player.None))) := by
  refine ⟨?_, ?_, ?_, ?_⟩
  · exact fun h => makeMove_finished g col h
  · exact fun h hc => makeMove_invalid g col h hc
  · intro h hlt hfull
    exact makeMove_full g ⟨col, hlt⟩ h ((findRow_none_iff _ _).mpr hfull)
  · exact fun e he => makeMove_error_cases g col e he

def gFin : Game := { Game.new with IsFinished := true }

def gColFull : Game :=
  { Game.new with
    Board := fun rc => if rc.2.val = 0 then Player.One else Player.None }

theorem claim_C3_witness :
    MakeMove gFin 0 = (Except.error MoveError.GameFinished, gFin) ∧
    MakeMove Game.new 7 = (Except.error MoveError.InvalidColumn, Game.new) ∧
    MakeMove gColFull 0 = (Except.error MoveError.ColumnFull, gColFull) ∧
    (MakeMove Game.new 7).snd = Game.new := by
  refine ⟨?_, ?_, ?_, ?_⟩
  · exact (claim_C3 gFin 0).1 rfl
  · exact (claim_C3 Game.new 7).2.1 rfl (by omega)
  · exact (claim_C3 gColFull 0).2.2.1 rfl (by omega) (by decide)
  · exact ((claim_C3 Game.new 7).2.2.2 MoveError.InvalidColumn (by decide)).1

/-- Claim C4: for every in-progress state and every in-range column with
an empty cell, `MakeMove` succeeds, places the current player's mark in
the lowest empty cell of the column (all cells below it non-empty — row
indices grow downward), and increments the move count by one. -/
theorem claim_C4 (g : Game) (col : Nat) (hf : g.IsFinished = false)
    (hlt : col < 7)
    (he : ∃ r : Fin 6, g.Board (r, ⟨col, hlt⟩) = Player.None) :
    (MakeMove g col).fst = Except.ok () ∧
    ∃ row : Fin 6,
      g.Board (row, ⟨col, hlt⟩) = Player.None ∧
      (∀ r : Fin 6, row < r → g.Board (r, ⟨col, hlt⟩) ≠ Player.None) ∧
      (MakeMove g col).snd.Board (row, ⟨col, hlt⟩) = g.CurrentPlayer ∧
      (MakeMove g col).snd.CurrentMove = g.CurrentMove + 1 := by
  cases hfr : findRow g.Board ⟨col, hlt⟩ with
  | none =>
    obtain ⟨r, hr⟩ := he
    exact absurd hr ((findRow_none_iff _ _).mp hfr r)
  | some row =>
    have hmm : MakeMove g col =
        (Except.ok (),
          afterPlace
            { g with
              Board := setCell g.Board (row, ⟨col, hlt⟩) g.CurrentPlayer
              CurrentMove := g.CurrentMove + 1 }) :=
      makeMove_ok g ⟨col, hlt⟩ row hf hfr
    obtain ⟨hempty, hbelow⟩ := findRow_some g.Board ⟨col, hlt⟩ row hfr
    rw [hmm]
    refine ⟨rfl, row, hempty, hbelow, ?_, ?_⟩
    · rw [afterPlace_board]
      exact Function.update_same ..
    · rw [afterPlace_move]

theorem claim_C4_witness :
    Game.new.IsFinished = false ∧ (3 : Nat) < 7 ∧
    (∃ r : Fin 6, Game.new.Board (r, ⟨3, by omega⟩) = Player.None) ∧
    ((MakeMove Game.new 3).fst = Except.ok () ∧
     ∃ row : Fin 6,
       Game.new.Board (row, ⟨3, by omega⟩) = Player.None ∧
       (∀ r : Fin 6, row < r →
         Game.new.Board (r, ⟨3, by omega⟩) ≠ Player.None) ∧
       (MakeMove Game.new 3).snd.Board (row, ⟨3, by omega⟩)
         = Game.new.CurrentPlayer ∧
       (MakeMove Game.new 3).snd.CurrentMove = Game.new.CurrentMove + 1) :=
  ⟨rfl, by omega, by decide, claim_C4 Game.new 3 rfl (by omega) (by decide)⟩

/-- Claim C10: every successful `MakeMove` changes exactly one board
cell: an empty cell in the requested column receives the current player's
mark, every other cell keeps its value, and no non-empty cell is ever
overwritten (the written cell was empty). The board's dimensions are
fixed by the `Board` type itself. -/
theorem claim_C10 (g : Game) (col : Nat)
    (hok : (MakeMove g col).fst = Except.ok ()) :
    ∃ pos : Fin 6 × Fin 7,
      pos.2.val = col ∧
      g.Board pos = Player.None ∧
      (MakeMove g col).snd.Board = setCell g.Board pos g.CurrentPlayer ∧
      (MakeMove g col).snd.Board pos = g.CurrentPlayer ∧
      ∀ q, q ≠ pos → (MakeMove g col).snd.Board q = g.Board q := by
  obtain ⟨hf, hlt, row, hfr, hmm⟩ := makeMove_ok_cases g col hok
  obtain ⟨hempty, -⟩ := findRow_some g.Board ⟨col, hlt⟩ row hfr
  refine ⟨(row, ⟨col, hlt⟩), rfl, hempty, ?_, ?_, ?_⟩
  · rw [hmm]
    rw [afterPlace_board]
  · rw [hmm]
    rw [afterPlace_board]
    exact Function.update_same ..
  · intro q hq
    rw [hmm, afterPlace_board]
    exact Function.update_noteq hq _ _

theorem claim_C10_witness :
    (MakeMove Game.new 0).fst = Except.ok () ∧
    ∃ pos : Fin 6 × Fin 7,
      pos.2.val = 0 ∧
      Game.new.Board pos = Player.None ∧
      (MakeMove Game.new 0).snd.Board
        = setCell Game.new.Board pos Game.new.CurrentPlayer ∧
      (MakeMove Game.new 0).snd.Board pos = Game.new.CurrentPlayer ∧
      ∀ q, q ≠ pos → (MakeMove Game.new 0).snd.Board q = Game.new.Board q :=
  ⟨by decide, claim_C10 Game.new 0 (by decide)⟩

/-! ### Claim C9: the two anti-diagonal direction choices agree -/

/-- The alternative direction set mentioned by the spec, with `(-1, 1)`
in place of `(1, -1)`. -/
def diagAlt : List (Int × Int) := [(0, 1), (1, 0), (1, 1), (-1, 1)]

/-- "The full-board forward-only scan using `dirs` reports a winning line
for `p`": some origin cell holds the non-empty mark `p` and some
direction's walk reaches a run of four. -/
def reportsWin (dirs : List (Int × Int)) (b : Board) (p : Player) : Prop :=
  ∃ r : Fin 6, ∃ c : Fin 7,
    b (r, c) ≠ Player.None ∧ b (r, c) = p ∧
    ∃ d ∈ dirs,
      dirWin b (b (r, c)) d.1 d.2 ((r.val : Int) + d.1) ((c.val : Int) + d.2) 3
        = true

/-- Walking a run of four backwards from its far end. -/
lemma lineFrom_shift (b : Board) (p : Player) (r c dr dc : Int)
    (h : LineFrom b p r c dr dc) :
    LineFrom b p (r + 3 * dr) (c + 3 * dc) (-dr) (-dc) := by
  intro k hk
  interval_cases k
  · have h3 := h 3 (by omega)
    have e1 : r + 3 * dr + ((0 : Nat) : Int) * -dr = r + ((3 : Nat) : Int) * dr := by
      push_cast
      ring
    have e2 : c + 3 * dc + ((0 : Nat) : Int) * -dc = c + ((3 : Nat) : Int) * dc := by
      push_cast
      ring
    rw [e1, e2]
    exact h3
  · have h2 := h 2 (by omega)
    have e1 : r + 3 * dr + ((1 : Nat) : Int) * -dr = r + ((2 : Nat) : Int) * dr := by
      push_cast
      ring
    have e2 : c + 3 * dc + ((1 : Nat) : Int) * -dc = c + ((2 : Nat) : Int) * dc := by
      push_cast
      ring
    rw [e1, e2]
    exact h2
  · have h1 := h 1 (by omega)
    have e1 : r + 3 * dr + ((2 : Nat) : Int) * -dr = r + ((1 : Nat) : Int) * dr := by
      push_cast
      ring
    have e2 : c + 3 * dc + ((2 : Nat) : Int) * -dc = c + ((1 : Nat) : Int) * dc := by
      push_cast
      ring
    rw [e1, e2]
    exact h1
  · have h0 := h 0 (by omega)
    have e1 : r + 3 * dr + ((3 : Nat) : Int) * -dr = r + ((0 : Nat) : Int) * dr := by
      push_cast
      ring
    have e2 : c + 3 * dc + ((3 : Nat) : Int) * -dc = c + ((0 : Nat) : Int) * dc := by
      push_cast
      ring
    rw [e1, e2]
    exact h0

/-- `reportsWin` in terms of runs of four anywhere on the board. -/
lemma reportsWin_iff (dirs : List (Int × Int)) (b : Board) (p : Player) :
    reportsWin dirs b p ↔
      (p ≠ Player.None ∧
        ∃ d ∈ dirs, ∃ rI cI : Int, LineFrom b p rI cI d.1 d.2) := by
  constructor
  · rintro ⟨r, c, hne, hbp, d, hd, hw⟩
    subst hbp
    refine ⟨hne, d, hd, (r.val : Int), (c.val : Int), ?_⟩
    rw [← dirWin_three_iff_lineFrom b _ _ _ d.1 d.2 (inB_fin r c)
      (cellAt_fin b r c)]
    exact hw
  · rintro ⟨hp, d, hd, rI, cI, hl⟩
    obtain ⟨hin, hcell⟩ := ((lineFrom_iff_explicit b p rI cI d.1 d.2).mp hl).1
    have hbp : b (toCell rI cI hin) = p := by
      rw [← cellAt_of_inB b rI cI hin]
      exact hcell
    have hpair : ((toCell rI cI hin).1, (toCell rI cI hin).2)
        = toCell rI cI hin := rfl
    refine ⟨(toCell rI cI hin).1, (toCell rI cI hin).2, ?_, ?_, d, hd, ?_⟩
    · rw [hpair, hbp]
      exact hp
    · rw [hpair]
      exact hbp
    · rw [hpair, hbp, toCell_val_fst rI cI hin, toCell_val_snd rI cI hin]
      exact (dirWin_three_iff_lineFrom b p rI cI d.1 d.2 hin hcell).mpr hl

/-- Claim C9: for every board and player, the scan with direction set
`[(0,1),(1,0),(1,1),(1,-1)]` reports a winning line exactly when the scan
with `[(0,1),(1,0),(1,1),(-1,1)]` does. -/
theorem claim_C9 (b : Board) (p : Player) :
    reportsWin directions b p ↔ reportsWin diagAlt b p := by
  rw [reportsWin_iff, reportsWin_iff]
  constructor <;> rintro ⟨hp, d, hd, rI, cI, hl⟩
  · refine ⟨hp, ?_⟩
    simp only [directions, List.mem_cons, List.not_mem_nil, or_false] at hd
    rcases hd with hd | hd | hd | hd
    · exact ⟨d, by rw [hd]; decide, rI, cI, hl⟩
    · exact ⟨d, by rw [hd]; decide, rI, cI, hl⟩
    · exact ⟨d, by rw [hd]; decide, rI, cI, hl⟩
    · subst hd
      refine ⟨(-1, 1), by decide, rI + 3, cI - 3, ?_⟩
      exact lineFrom_shift b p rI cI 1 (-1) hl
  · refine ⟨hp, ?_⟩
    simp only [diagAlt, List.mem_cons, List.not_mem_nil, or_false] at hd
    rcases hd with hd | hd | hd | hd
    · exact ⟨d, by rw [hd]; decide, rI, cI, hl⟩
    · exact ⟨d, by rw [hd]; decide, rI, cI, hl⟩
    · exact ⟨d, by rw [hd]; decide, rI, cI, hl⟩
    · subst hd
      refine ⟨(1, -1), by decide, rI - 3, cI + 3, ?_⟩
      exact lineFrom_shift b p rI cI (-1) 1 hl

/-- Claim C7: on every reachable state, the finished flag is set exactly
when a 4-in-a-row exists on the board or the move count equals
`BOARD_WIDTH * BOARD_HEIGHT = 7 * 6`. -/
theorem claim_C7 (g : Game) (h : Reachable g) :
    g.IsFinished = true ↔
      (∃ p, p ≠ Player.None ∧ HasLine g.Board p) ∨ g.CurrentMove = 7 * 6 := by
  have hInv := (reachable_inv g h).2.2.2.2
  rw [show (7 * 6 : Nat) = 42 from rfl]
  exact hInv

theorem claim_C7_witness :
    Reachable g7 ∧
    (g7.IsFinished = true ↔
      (∃ p, p ≠ Player.None ∧ HasLine g7.Board p) ∨ g7.CurrentMove = 7 * 6) :=
  have hr : Reachable g7 :=
    Reachable.step g6 0 (reachable_play Game.new Reachable.init winCols)
  ⟨hr, claim_C7 g7 hr⟩

/-- The variant of `FindWinner` that always scans the board, regardless
of the move count (the refinement target named by the spec). -/
def FindWinnerUngated (g : Game) : Player :=
  match WinnerScan g.Board with
  | some p => p
  | none => Player.None

/-- Claim C8: on every reachable state with fewer than 7 moves no
4-in-a-row exists, so the early return of `FindWinner` below move 7 is
only a shortcut: its result always agrees with the unconditional scan. -/
theorem claim_C8 (g : Game) (h : Reachable g) :
    (g.CurrentMove < 7 → ∀ p, p ≠ Player.None → ¬ HasLine g.Board p) ∧
    (FindWinner g).fst = FindWinnerUngated g := by
  have hno : g.CurrentMove < 7 → ∀ p, p ≠ Player.None → ¬ HasLine g.Board p := by
    intro h7 p hp hl
    have := line_ge7 g h p hp hl
    omega
  refine ⟨hno, ?_⟩
  by_cases h7 : g.CurrentMove < 7
  · rw [findWinner_lt7 g h7]
    cases hscan : WinnerScan g.Board with
    | none =>
      unfold FindWinnerUngated
      rw [hscan]
    | some q =>
      obtain ⟨hq, hl⟩ := winnerScan_sound _ _ hscan
      exact absurd hl (hno h7 q hq)
  · cases hscan : WinnerScan g.Board with
    | some q =>
      rw [findWinner_some g q h7 hscan]
      unfold FindWinnerUngated
      rw [hscan]
    | none =>
      by_cases h42 : g.CurrentMove = 42
      · rw [findWinner_none_draw g h7 hscan h42]
        unfold FindWinnerUngated
        rw [hscan]
      · rw [findWinner_none g h7 hscan h42]
        unfold FindWinnerUngated
        rw [hscan]

theorem claim_C8_witness :
    Reachable g6 ∧
    ((g6.CurrentMove < 7 → ∀ p, p ≠ Player.None → ¬ HasLine g6.Board p) ∧
     (FindWinner g6).fst = FindWinnerUngated g6) :=
  have hr : Reachable g6 := reachable_play Game.new Reachable.init winCols
  ⟨hr, claim_C8 g6 hr⟩

/-! ### Claims C2, C5, C6 about the outcome of an accepted move -/

/-- Claim C2: from a reachable in-progress state, an accepted move that
completes a line of four of the moving player makes the game finished
with that player as winner; an accepted move that completes no such line
leaves the winner empty and can only finish the game by filling the board
(`7 * 6` moves), not by win. -/
theorem claim_C2 (g : Game) (col : Nat) (hr : Reachable g)
    (hf : g.IsFinished = false) (hok : (MakeMove g col).fst = Except.ok ()) :
    (HasLine (MakeMove g col).snd.Board g.CurrentPlayer →
      (MakeMove g col).snd.IsFinished = true ∧
      (MakeMove g col).snd.Winner = g.CurrentPlayer) ∧
    (¬ HasLine (MakeMove g col).snd.Board g.CurrentPlayer →
      (MakeMove g col).snd.Winner = Player.None ∧
      ((MakeMove g col).snd.IsFinished = true →
        (MakeMove g col).snd.CurrentMove = 7 * 6)) := by
  obtain ⟨-, hlt, row, hfr, hmm⟩ := makeMove_ok_cases g col hok
  obtain ⟨-, -, hPl, hWin, hFin⟩ := reachable_inv g hr
  have hP : g.CurrentPlayer = parityPlayer g.CurrentMove := hPl hf
  have hp0 : g.CurrentPlayer ≠ Player.None := by
    rw [hP]
    exact parityPlayer_ne_none _
  have hnoline : ∀ p, p ≠ Player.None → ¬ HasLine g.Board p := by
    intro p hp hl
    have := hFin.mpr (Or.inl ⟨p, hp, hl⟩)
    rw [hf] at this
    cases this
  have hW : g.Winner = Player.None := hWin hf
  have hsnd : (MakeMove g col).snd =
      afterPlace
        { g with
          Board := setCell g.Board (row, ⟨col, hlt⟩) g.CurrentPlayer
          CurrentMove := g.CurrentMove + 1 } := by
    rw [hmm]
  set g1 : Game :=
    { g with
      Board := setCell g.Board (row, ⟨col, hlt⟩) g.CurrentPlayer
      CurrentMove := g.CurrentMove + 1 } with hg1
  have hb : (MakeMove g col).snd.Board = g1.Board := by
    rw [hsnd, afterPlace_board]
  constructor
  · intro hl
    rw [hb] at hl
    have hr2 : Reachable (MakeMove g col).snd := Reachable.step g col hr
    have h7 : 7 ≤ (MakeMove g col).snd.CurrentMove :=
      line_ge7 _ hr2 _ hp0 (by rw [hb]; exact hl)
    have hm2 : (MakeMove g col).snd.CurrentMove = g.CurrentMove + 1 := by
      rw [hsnd, afterPlace_move]
    obtain ⟨q, hscan⟩ := winnerScan_complete g1.Board _ hp0 hl
    obtain ⟨hq, hql⟩ := winnerScan_sound _ _ hscan
    have hqp : q = g.CurrentPlayer :=
      hasLine_setCell_eq g.Board _ g.CurrentPlayer q hq hql (hnoline q hq)
    have h7g : ¬ g1.CurrentMove < 7 := by
      have : g1.CurrentMove = g.CurrentMove + 1 := rfl
      omega
    have hap : afterPlace g1 = { g1 with Winner := q, IsFinished := true } :=
      afterPlace_win g1 q h7g hscan hq
    rw [hsnd, hap]
    exact ⟨rfl, hqp⟩
  · intro hnl
    rw [hb] at hnl
    have hscan : WinnerScan g1.Board = none := by
      cases hsc : WinnerScan g1.Board with
      | none => rfl
      | some q =>
        obtain ⟨hq, hql⟩ := winnerScan_sound _ _ hsc
        have hqp : q = g.CurrentPlayer :=
          hasLine_setCell_eq g.Board _ g.CurrentPlayer q hq hql (hnoline q hq)
        rw [hqp] at hql
        exact absurd hql hnl
    have hfst : (FindWinner g1).fst = Player.None := findWinner_fst_none g1 hscan
    have hap := afterPlace_noWin g1 hfst
    rw [hsnd, hap]
    refine ⟨?_, ?_⟩
    · show (FindWinner g1).snd.Winner = Player.None
      rw [(findWinner_frame g1).2.2.2]
      exact hW
    · intro hfin
      show (FindWinner g1).snd.CurrentMove = 7 * 6
      rw [(findWinner_frame g1).2.1]
      by_cases h7 : g1.CurrentMove < 7
      · rw [findWinner_lt7 g1 h7] at hfin
        have hff : g.IsFinished = true := hfin
        rw [hf] at hff
        cases hff
      · by_cases h42 : g1.CurrentMove = 42
        · omega
        · rw [findWinner_none g1 h7 hscan h42] at hfin
          have hff : g.IsFinished = true := hfin
          rw [hf] at hff
          cases hff

theorem claim_C2_witness :
    Reachable g6 ∧ g6.IsFinished = false ∧
    (MakeMove g6 0).fst = Except.ok () ∧
    HasLine (MakeMove g6 0).snd.Board g6.CurrentPlayer ∧
    (MakeMove g6 0).snd.IsFinished = true ∧
    (MakeMove g6 0).snd.Winner = g6.CurrentPlayer := by
  have hr : Reachable g6 := reachable_play Game.new Reachable.init winCols
  have h := (claim_C2 g6 0 hr (by decide) (by decide)).1 (by decide)
  exact ⟨hr, by decide, by decide, by decide, h.1, h.2⟩

/-- Claim C5: from a reachable in-progress state, an accepted move that
brings the move count to `7 * 6` with no 4-in-a-row on the resulting
board finishes the game as a draw: finished becomes true and the winner
stays empty. -/
theorem claim_C5 (g : Game) (col : Nat) (hr : Reachable g)
    (hf : g.IsFinished = false) (hok : (MakeMove g col).fst = Except.ok ())
    (hm : (MakeMove g col).snd.CurrentMove = 7 * 6)
    (hnl : ∀ p, p ≠ Player.None → ¬ HasLine (MakeMove g col).snd.Board p) :
    (MakeMove g col).snd.IsFinished = true ∧
    (MakeMove g col).snd.Winner = Player.None := by
  obtain ⟨-, hlt, row, hfr, hmm⟩ := makeMove_ok_cases g col hok
  obtain ⟨-, -, -, hWin, -⟩ := reachable_inv g hr
  have hW : g.Winner = Player.None := hWin hf
  have hsnd : (MakeMove g col).snd =
      afterPlace
        { g with
          Board := setCell g.Board (row, ⟨col, hlt⟩) g.CurrentPlayer
          CurrentMove := g.CurrentMove + 1 } := by
    rw [hmm]
  set g1 : Game :=
    { g with
      Board := setCell g.Board (row, ⟨col, hlt⟩) g.CurrentPlayer
      CurrentMove := g.CurrentMove + 1 } with hg1
  have hb : (MakeMove g col).snd.Board = g1.Board := by
    rw [hsnd, afterPlace_board]
  have hm1 : g1.CurrentMove = 42 := by
    have h1 : (MakeMove g col).snd.CurrentMove = g1.CurrentMove := by
      rw [hsnd, afterPlace_move]
    rw [h1] at hm
    omega
  have hscan : WinnerScan g1.Board = none := by
    cases hsc : WinnerScan g1.Board with
    | none => rfl
    | some q =>
      obtain ⟨hq, hql⟩ := winnerScan_sound _ _ hsc
      rw [← hb] at hql
      exact absurd hql (hnl q hq)
  have hfw : FindWinner g1 = (Player.None, { g1 with IsFinished := true }) :=
    findWinner_none_draw g1 (by omega) hscan hm1
  have hap := afterPlace_noWin g1 (by rw [hfw])
  rw [hsnd, hap]
  constructor
  · show (FindWinner g1).snd.IsFinished = true
    rw [hfw]
  · show (FindWinner g1).snd.Winner = Player.None
    rw [hfw]
    exact hW

set_option maxRecDepth 80000 in
theorem claim_C5_witness :
    Reachable g41 ∧ g41.IsFinished = false ∧
    (MakeMove g41 5).fst = Except.ok () ∧
    (MakeMove g41 5).snd.CurrentMove = 7 * 6 ∧
    (∀ p, p ≠ Player.None → ¬ HasLine (MakeMove g41 5).snd.Board p) ∧
    (MakeMove g41 5).snd.IsFinished = true ∧
    (MakeMove g41 5).snd.Winner = Player.None := by
  have hr : Reachable g41 :=
    reachable_play Game.new Reachable.init (drawCols.take 41)
  have h := claim_C5 g41 5 hr (by decide) (by decide) (by decide) (by decide)
  exact ⟨hr, by decide, by decide, by decide, by decide, h.1, h.2⟩

/-- Counterexample to claim C6 as stated: an accepted move that fills the
board into a draw (finished, winner empty, move count `7 * 6`) DOES
advance the current player — `FindWinner` returns Empty for a draw, so
`MakeMove` takes the player-switching branch. -/
theorem claim_C6_counterexample :
    (MakeMove drawPre 0).fst = Except.ok () ∧
    (MakeMove drawPre 0).snd.IsFinished = true ∧
    (MakeMove drawPre 0).snd.Winner = Player.None ∧
    (MakeMove drawPre 0).snd.CurrentMove = 7 * 6 ∧
    (MakeMove drawPre 0).snd.CurrentPlayer ≠ drawPre.CurrentPlayer := by
  decide

/-- Claim C6 as amended: the current player is advanced exactly when the
accepted move produces no winning line — in particular it IS advanced
when the move fills the board into a draw — and it is never advanced when
the move is rejected with an error (the state is unchanged). -/
theorem claim_C6_amended :
    (∀ (g : Game) (col : Nat), Reachable g → g.IsFinished = false →
      (MakeMove g col).fst = Except.ok () →
      ((HasLine (MakeMove g col).snd.Board g.CurrentPlayer →
         (MakeMove g col).snd.CurrentPlayer = g.CurrentPlayer) ∧
       (¬ HasLine (MakeMove g col).snd.Board g.CurrentPlayer →
         (MakeMove g col).snd.CurrentPlayer = SwitchPlayer g.CurrentPlayer))) ∧
    (∀ (g : Game) (col : Nat) (e : MoveError),
      (MakeMove g col).fst = Except.error e → (MakeMove g col).snd = g) := by
  constructor
  · intro g col hr hf hok
    obtain ⟨-, hlt, row, hfr, hmm⟩ := makeMove_ok_cases g col hok
    obtain ⟨-, -, hPl, -, hFin⟩ := reachable_inv g hr
    have hP : g.CurrentPlayer = parityPlayer g.CurrentMove := hPl hf
    have hp0 : g.CurrentPlayer ≠ Player.None := by
      rw [hP]
      exact parityPlayer_ne_none _
    have hnoline : ∀ p, p ≠ Player.None → ¬ HasLine g.Board p := by
      intro p hp hl
      have := hFin.mpr (Or.inl ⟨p, hp, hl⟩)
      rw [hf] at this
      cases this
    have hsnd : (MakeMove g col).snd =
        afterPlace
          { g with
            Board := setCell g.Board (row, ⟨col, hlt⟩) g.CurrentPlayer
            CurrentMove := g.CurrentMove + 1 } := by
      rw [hmm]
    set g1 : Game :=
      { g with
        Board := setCell g.Board (row, ⟨col, hlt⟩) g.CurrentPlayer
        CurrentMove := g.CurrentMove + 1 } with hg1
    have hb : (MakeMove g col).snd.Board = g1.Board := by
      rw [hsnd, afterPlace_board]
    constructor
    · intro hl
      rw [hb] at hl
      have hr2 : Reachable (MakeMove g col).snd := Reachable.step g col hr
      have h7 : 7 ≤ (MakeMove g col).snd.CurrentMove :=
        line_ge7 _ hr2 _ hp0 (by rw [hb]; exact hl)
      have hm2 : (MakeMove g col).snd.CurrentMove = g.CurrentMove + 1 := by
        rw [hsnd, afterPlace_move]
      obtain ⟨q, hscan⟩ := winnerScan_complete g1.Board _ hp0 hl
      obtain ⟨hq, -⟩ := winnerScan_sound _ _ hscan
      have h7g : ¬ g1.CurrentMove < 7 := by
        have : g1.CurrentMove = g.CurrentMove + 1 := rfl
        omega
      have hap : afterPlace g1 = { g1 with Winner := q, IsFinished := true } :=
        afterPlace_win g1 q h7g hscan hq
      rw [hsnd, hap]
    · intro hnl
      rw [hb] at hnl
      have hscan : WinnerScan g1.Board = none := by
        cases hsc : WinnerScan g1.Board with
        | none => rfl
        | some q =>
          obtain ⟨hq, hql⟩ := winnerScan_sound _ _ hsc
          have hqp : q = g.CurrentPlayer :=
            hasLine_setCell_eq g.Board _ g.CurrentPlayer q hq hql (hnoline q hq)
          rw [hqp] at hql
          exact absurd hql hnl
      have hfst : (FindWinner g1).fst = Player.None :=
        findWinner_fst_none g1 hscan
      rw [hsnd, afterPlace_noWin g1 hfst]
      show SwitchPlayer (FindWinner g1).snd.CurrentPlayer
        = SwitchPlayer g.CurrentPlayer
      rw [(findWinner_frame g1).2.2.1]
  · intro g col e he
    exact (makeMove_error_cases g col e he).1

theorem claim_C6_amended_witness :
    Reachable Game.new ∧ Game.new.IsFinished = false ∧
    (MakeMove Game.new 0).fst = Except.ok () ∧
    (¬ HasLine (MakeMove Game.new 0).snd.Board Game.new.CurrentPlayer) ∧
    (MakeMove Game.new 0).snd.CurrentPlayer
      = SwitchPlayer Game.new.CurrentPlayer ∧
    (MakeMove Game.new 9).fst = Except.error MoveError.InvalidColumn ∧
    (MakeMove Game.new 9).snd = Game.new := by
  refine ⟨Reachable.init, rfl, by decide, by decide, ?_, by decide, ?_⟩
  · exact (claim_C6_amended.1 Game.new 0 Reachable.init rfl (by decide)).2
      (by decide)
  · exact claim_C6_amended.2 Game.new 9 MoveError.InvalidColumn (by decide)

end ConnectFour
